import Mathlib

set_option maxRecDepth 10000

/-!
A verification development for `generate_tables.py`, the table-generation
script of the `unicode-intervals` repository.  The script post-processes the
output of the external `ucd-generate` tool: it rewrites the declared type of
the `BY_NAME` index, unwraps each category's `("Name", TABLE),` entry to a
bare `TABLE,` entry, and writes the result to a version-derived path.

Python byte strings are modelled as `List Nat` (one `Nat` per byte), Python
text strings as Lean `String`.  The byte-level primitives used by the script
(`bytes.replace`, `bytes.splitlines`, the `in` containment test, `b"\n".join`)
are modelled below with the exact semantics of CPython:
  * `replace` substitutes non-overlapping occurrences left to right;
  * `splitlines` splits on LF (10), CR (13) and CRLF, dropping the
    terminators and producing no final empty chunk for a trailing terminator;
  * containment is the contiguous-substring test (`List.IsInfix`);
  * the join inserts a single LF byte between chunks.
`transform_code` iterates over the Python set `CATEGORIES`; since set
enumeration order is an implementation detail of the interpreter (string
hashing is randomized across runs), the order is passed explicitly as a
parameter, an enumeration (permutation) of `CATEGORIES`.  The unchecked
`lines[None]` indexing of the script (when `next(...)` yields no index)
raises a `TypeError`; it is modelled by the single, category-independent
error value `PyErr.typeErrorNoneIndex`.

The recursions of `replace` and `splitlines` consume more than one list cell
per step, so they are written with an explicit fuel argument (initialised
with the list length, which always suffices) to keep them structurally
recursive and hence reducible by the kernel.
-/

/-- Bytes of an ASCII string, one `Nat` per character (models `str.encode`). -/
def s2b (s : String) : List Nat := s.data.map Char.toNat

/-- Byte-level predicate: true on bytes that are not line terminators. -/
def nonTerm (c : Nat) : Bool := decide (¬ c = 10 ∧ ¬ c = 13)

/-- Worker for `replace`, structurally recursive on `fuel`. -/
def replaceGo {α : Type} [DecidableEq α] (pat rep : List α) :
    Nat → List α → List α
  | _, [] => []
  | 0, s => s
  | fuel + 1, c :: rest =>
    if ¬ pat = [] ∧ pat <+: (c :: rest) then
      rep ++ replaceGo pat rep fuel ((c :: rest).drop pat.length)
    else
      c :: replaceGo pat rep fuel rest

/-- Model of CPython `bytes.replace` (and single-character `str.replace`):
substitute non-overlapping occurrences of `pat` by `rep`, scanning left to
right.  (All call sites in the script use a nonempty `pat`; for `pat = []`
this model is the identity while CPython would intersperse `rep`.) -/
def replace {α : Type} [DecidableEq α] (s pat rep : List α) : List α :=
  replaceGo pat rep s.length s

/-- Worker for `splitlines`, structurally recursive on `fuel`. -/
def splitlinesGo : Nat → List Nat → List (List Nat)
  | _, [] => []
  | 0, _ => []
  | fuel + 1, c :: s =>
    match (c :: s).dropWhile nonTerm with
    | [] => [(c :: s).takeWhile nonTerm]
    | t :: r =>
      if t = 13 ∧ r.head? = some 10 then
        (c :: s).takeWhile nonTerm :: splitlinesGo fuel r.tail
      else
        (c :: s).takeWhile nonTerm :: splitlinesGo fuel r

/-- Model of CPython `bytes.splitlines`: split on LF, CR and CRLF, dropping
the terminators; a trailing terminator yields no final empty chunk. -/
def splitlines (s : List Nat) : List (List Nat) :=
  splitlinesGo s.length s

/-- Model of `b"\n".join`: glue chunks with a single LF byte. -/
def joinNL : List (List Nat) → List Nat
  | [] => []
  | [l] => l
  | l :: ls => l ++ 10 :: joinNL ls

/-- The 30 leaf general-category names, in the order they are written in the
`CATEGORIES` set literal of the script. -/
def CATEGORY_NAMES : List String :=
  ["Close_Punctuation", "Connector_Punctuation", "Control", "Currency_Symbol",
   "Dash_Punctuation", "Decimal_Number", "Enclosing_Mark", "Final_Punctuation",
   "Format", "Initial_Punctuation", "Letter_Number", "Line_Separator",
   "Lowercase_Letter", "Math_Symbol", "Modifier_Letter", "Modifier_Symbol",
   "Nonspacing_Mark", "Open_Punctuation", "Other_Letter", "Other_Number",
   "Other_Punctuation", "Other_Symbol", "Paragraph_Separator", "Private_Use",
   "Space_Separator", "Spacing_Mark", "Surrogate", "Titlecase_Letter",
   "Unassigned", "Uppercase_Letter"]

/-- The members of the `CATEGORIES` set, as byte strings. -/
def CATEGORIES : List (List Nat) := CATEGORY_NAMES.map s2b

/-- The pattern `("Name", ` (bytes of `f"(\"{category}\", "`). -/
def catPat (cat : List Nat) : List Nat := [40, 34] ++ cat ++ [34, 44, 32]

/-- Bytes of the replaced `BY_NAME` type declaration
`pub const BY_NAME: &'static [(&'static str, &'static [(u32, u32)])]`
(the apostrophe is byte 39). -/
def byNameOld : List Nat :=
  s2b "pub const BY_NAME: &" ++ [39] ++ s2b "static [(&" ++ [39] ++
    s2b "static str, &" ++ [39] ++ s2b "static [(u32, u32)])]"

/-- Bytes of the replacement `BY_NAME` type declaration
`pub const BY_NAME: &'static [&'static [(u32, u32)]]`. -/
def byNameNew : List Nat :=
  s2b "pub const BY_NAME: &" ++ [39] ++ s2b "static [&" ++ [39] ++
    s2b "static [(u32, u32)]]"

/-- The per-line rewrite applied to a located category line:
`line.replace(f"(\"{category}\", ".encode(), b"").replace(b"),", b",")`. -/
def rwLine (cat line : List Nat) : List Nat :=
  replace (replace line (catPat cat) []) [41, 44] [44]

deriving instance DecidableEq for Except

/-- The one uncaught exception the script can raise inside `transform_code`:
`lines[None]` raises `TypeError: list indices must be integers ...`.  The
payload names no category. -/
inductive PyErr where
  | typeErrorNoneIndex
deriving DecidableEq

/-- The `for category in CATEGORIES` loop of `transform_code`: for each
category, find the first line containing its name; absent any match the
`None` index raises; otherwise rewrite that line in place. -/
def transformLines : List (List Nat) → List (List Nat) →
    Except PyErr (List (List Nat))
  | [], lines => .ok lines
  | cat :: cats, lines =>
    match lines.findIdx? (fun line => decide (cat <:+: line)) with
    | none => .error .typeErrorNoneIndex
    | some i => transformLines cats (lines.set i (rwLine cat (lines.getD i [])))

/-- `transform_code`, with the set-enumeration order passed explicitly. -/
def transform_code (order : List (List Nat)) (code : List Nat) :
    Except PyErr (List Nat) :=
  (transformLines order (splitlines (replace code byNameOld byNameNew))).map joinNL

/-- `get_output_path`: `pathlib.Path("src/tables") / f"v{version}.rs"` with
`version = unicode_version.replace(".", "_")`.  The `mkdir` side effect is
not part of the returned value and is not modelled. -/
def get_output_path (unicode_version : String) : String :=
  String.mk (("src/tables/v").data ++
    replace unicode_version.data [Char.ofNat 46] [Char.ofNat 95] ++ (".rs").data)

/-- The usage banner printed on bad CLI arity. -/
def USAGE : String := "Usage: python generate_tables.py <unicode version>"

/-- The exclusion list passed to `ucd-generate`, in command-line order. -/
def EXCLUDED_NAMES : List String :=
  ["Separator", "Symbol", "Cased_Letter", "Letter", "Mark", "Number",
   "Other", "Punctuation"]

/-- The eight aggregate general-category names as the specification lists
them. -/
def AGGREGATE_NAMES : List String :=
  ["Letter", "Mark", "Number", "Punctuation", "Symbol", "Separator",
   "Cased_Letter", "Other"]

/-- The shell command assembled by `ucd_generate`. -/
def ucd_generate_command (directory : String) : String :=
  "ucd-generate general-category " ++ directory ++
    " --exclude=Separator,Symbol,Cased_Letter,Letter,Mark,Number,Other,Punctuation"

/-- Pipeline stages of `main`, in source order. -/
inductive MainStep where
  | fetchStep
  | generateStep
  | transformStep
  | writeStep
deriving DecidableEq

/-- Terminal outcome of one run of `main`. -/
inductive MainOutcome where
  | usageExit
  | fetchError
  | generatorError
  | transformError
  | success
deriving DecidableEq

/-- Observable result of one run of `main`: outcome, the file store, lines
printed to stdout, the pipeline stages that were started, and the process
exit status (Python exits 1 both for `sys.exit(1)` and for an uncaught
exception). -/
structure RunResult where
  outcome : MainOutcome
  files : List (String × List Nat)
  printed : List String
  steps : List MainStep
  exit : Nat
deriving DecidableEq

/-- Open-for-write-then-write: the file at `path` now holds exactly
`content`, shadowing any previous entry. -/
def setFile (files : List (String × List Nat)) (path : String)
    (content : List Nat) : List (String × List Nat) :=
  (path, content) :: files.filter (fun e => decide (¬ e.1 = path))

/-- The `main` entry point of the script, with the two external collaborators
(the network fetch and the `ucd-generate` subprocess) modelled as oracle
parameters: `fetchOk` tells whether `fetch` succeeds, `genResult` is
`ucd_generate`'s captured stdout, `none` meaning the subprocess failed
(`check=True` raises). -/
def mainRun (argv : List String) (fetchOk : Bool)
    (genResult : Option (List Nat)) (order : List (List Nat))
    (files : List (String × List Nat)) : RunResult :=
  if argv.length ≠ 2 then
    ⟨.usageExit, files, [USAGE], [], 1⟩
  else if fetchOk = false then
    ⟨.fetchError, files, [], [.fetchStep], 1⟩
  else
    match genResult with
    | none => ⟨.generatorError, files, [], [.fetchStep, .generateStep], 1⟩
    | some code =>
      match transform_code order code with
      | .error _ =>
        ⟨.transformError, files, [],
          [.fetchStep, .generateStep, .transformStep], 1⟩
      | .ok out =>
        ⟨.success,
          setFile files (get_output_path (argv.getD 1 "")) out, [],
          [.fetchStep, .generateStep, .transformStep, .writeStep], 0⟩

/-- In-place derivation: `y` arises from `x` by applying, in order, the
per-category rewrites of some subsequence of the enumeration `o`. -/
def rwChain (o : List (List Nat)) (x y : List Nat) : Prop :=
  ∃ cs : List (List Nat), cs.Sublist o ∧ y = cs.foldl (fun l c => rwLine c l) x

/-- The expected line list after the `CATEGORIES` loop has processed the
categories in `done`, for an input whose category lines are located by the
index map `J`: every line whose index is `J c` for some `c` in `done` is
rewritten for that category, all other lines are untouched. -/
def tstate (J : List Nat → Nat) (done : List (List Nat))
    (L : List (List Nat)) : List (List Nat) :=
  (List.range L.length).map (fun j =>
    match done.find? (fun c => decide (J c = j)) with
    | some c => rwLine c (L.getD j [])
    | none => L.getD j [])

/-- A well-formed generated-source fixture: one `("Name", X),` entry line
per category (`X` is byte 88), in the order of `CATEGORY_NAMES`. -/
def wfEntryLines : List (List Nat) :=
  CATEGORY_NAMES.map (fun n => catPat (s2b n) ++ [88] ++ [41, 44])

/-- The entry-line fixture joined into a single byte string. -/
def wfInput : List Nat := joinNL wfEntryLines

/-- Fixture in which the name `Control` occurs on two distinct lines: the
30 entry lines followed by one extra line holding the bare name. -/
def c1Input : List Nat := joinNL (wfEntryLines ++ [s2b "Control"])

/-- The entry-line fixture followed by two LF bytes, i.e. an input whose
last Python line is empty. -/
def c10Input : List Nat := wfInput ++ [10, 10]

/-- Adversarial line: rewriting its `("Control", ` entry glues `For` to
`mat`, creating a fresh occurrence of the name `Format`. -/
def c2Line0 : List Nat := s2b "For" ++ catPat (s2b "Control") ++ s2b "mat"

/-- An ordinary `("Format", y),`-style entry line. -/
def c2Line1 : List Nat := s2b "x" ++ catPat (s2b "Format") ++ s2b "y" ++ [41, 44]

/-- Entry lines for the 28 categories other than `Control` and `Format`. -/
def c2Rest : List (List Nat) :=
  (CATEGORY_NAMES.filter
    (fun n => decide (¬ (n = "Control" ∨ n = "Format")))).map
    (fun n => catPat (s2b n) ++ [88] ++ [41, 44])

/-- Input on which the output of `transform_code` depends on the
enumeration order of the category set. -/
def c2Input : List Nat := joinNL (c2Line0 :: c2Line1 :: c2Rest)

/-- Enumeration order processing `Control` before `Format`. -/
def c2Order1 : List (List Nat) :=
  s2b "Control" :: s2b "Format" ::
    (CATEGORY_NAMES.filter
      (fun n => decide (¬ (n = "Control" ∨ n = "Format")))).map s2b

/-- Enumeration order processing `Format` before `Control`. -/
def c2Order2 : List (List Nat) :=
  s2b "Format" :: s2b "Control" ::
    (CATEGORY_NAMES.filter
      (fun n => decide (¬ (n = "Control" ∨ n = "Format")))).map s2b

/-- The index map of the entry-line fixture: each category to its position
in `CATEGORY_NAMES`. -/
def wfIdx (c : List Nat) : Nat := CATEGORIES.findIdx (fun x => decide (x = c))

/-! ### Equation lemmas for the fuel-based workers -/

theorem replaceGo_fuel {α : Type} [DecidableEq α] (pat rep : List α) :
    ∀ f1 f2 s, s.length ≤ f1 → s.length ≤ f2 →
      replaceGo pat rep f1 s = replaceGo pat rep f2 s := by
  intro f1
  induction f1 with
  | zero =>
    intro f2 s h1 _
    have hs : s = [] := List.eq_nil_of_length_eq_zero (Nat.le_zero.mp h1)
    subst hs
    cases f2 <;> rfl
  | succ f ih =>
    intro f2 s h1 h2
    cases s with
    | nil => cases f2 <;> rfl
    | cons c rest =>
      cases f2 with
      | zero => simp at h2
      | succ g =>
        simp only [replaceGo]
        by_cases hc : ¬ pat = [] ∧ pat <+: (c :: rest)
        · rw [if_pos hc, if_pos hc]
          have hp : 0 < pat.length := List.length_pos.mpr hc.1
          simp only [List.length_cons] at h1 h2
          have hd1 : ((c :: rest).drop pat.length).length ≤ f := by
            simp only [List.length_drop, List.length_cons]
            omega
          have hd2 : ((c :: rest).drop pat.length).length ≤ g := by
            simp only [List.length_drop, List.length_cons]
            omega
          rw [ih g _ hd1 hd2]
        · rw [if_neg hc, if_neg hc]
          simp only [List.length_cons] at h1 h2
          rw [ih g rest (by omega) (by omega)]

theorem replace_nil {α : Type} [DecidableEq α] (pat rep : List α) :
    replace ([] : List α) pat rep = [] := rfl

theorem replace_cons_pos {α : Type} [DecidableEq α] {pat : List α} (rep : List α)
    {c : α} {rest : List α} (h1 : ¬ pat = []) (h2 : pat <+: (c :: rest)) :
    replace (c :: rest) pat rep =
      rep ++ replace ((c :: rest).drop pat.length) pat rep := by
  have hp : 0 < pat.length := List.length_pos.mpr h1
  unfold replace
  simp only [List.length_cons, replaceGo, if_pos (And.intro h1 h2)]
  congr 1
  apply replaceGo_fuel
  · simp only [List.length_drop, List.length_cons]
    omega
  · exact Nat.le_refl _

theorem replace_cons_neg {α : Type} [DecidableEq α] {pat : List α} (rep : List α)
    {c : α} {rest : List α} (h : ¬ (¬ pat = [] ∧ pat <+: (c :: rest))) :
    replace (c :: rest) pat rep = c :: replace rest pat rep := by
  unfold replace
  simp only [List.length_cons, replaceGo, if_neg h]

theorem splitlinesGo_fuel :
    ∀ f1 f2 s, s.length ≤ f1 → s.length ≤ f2 →
      splitlinesGo f1 s = splitlinesGo f2 s := by
  intro f1
  induction f1 with
  | zero =>
    intro f2 s h1 _
    have hs : s = [] := List.eq_nil_of_length_eq_zero (Nat.le_zero.mp h1)
    subst hs
    cases f2 <;> rfl
  | succ f ih =>
    intro f2 s h1 h2
    cases s with
    | nil => cases f2 <;> rfl
    | cons c s2 =>
      cases f2 with
      | zero => simp at h2
      | succ g =>
        have hlen : ((c :: s2).takeWhile nonTerm).length +
            ((c :: s2).dropWhile nonTerm).length = (c :: s2).length := by
          rw [← List.length_append, List.takeWhile_append_dropWhile]
        cases hd : (c :: s2).dropWhile nonTerm with
        | nil => simp only [splitlinesGo, hd]
        | cons t r =>
          rw [hd] at hlen
          simp only [List.length_cons] at hlen h1 h2
          simp only [splitlinesGo, hd]
          by_cases hc : t = 13 ∧ r.head? = some 10
          · rw [if_pos hc, if_pos hc]
            have ht : r.tail.length ≤ r.length := by
              cases r <;> simp
            rw [ih g r.tail (by omega) (by omega)]
          · rw [if_neg hc, if_neg hc]
            rw [ih g r (by omega) (by omega)]

theorem splitlines_nil : splitlines [] = [] := rfl

theorem splitlines_no_term {s : List Nat} (hs : ¬ s = [])
    (hd : s.dropWhile nonTerm = []) :
    splitlines s = [s.takeWhile nonTerm] := by
  cases s with
  | nil => exact absurd rfl hs
  | cons c s2 =>
    unfold splitlines
    simp only [List.length_cons, splitlinesGo, hd]

theorem splitlines_crlf {s : List Nat} {r : List Nat}
    (hd : s.dropWhile nonTerm = 13 :: r) (hr : r.head? = some 10) :
    splitlines s = s.takeWhile nonTerm :: splitlines r.tail := by
  cases s with
  | nil => simp at hd
  | cons c s2 =>
    have hlen : ((c :: s2).takeWhile nonTerm).length +
        ((c :: s2).dropWhile nonTerm).length = (c :: s2).length := by
      rw [← List.length_append, List.takeWhile_append_dropWhile]
    rw [hd] at hlen
    simp only [List.length_cons] at hlen
    have ht : r.tail.length ≤ r.length := by cases r <;> simp
    unfold splitlines
    simp only [List.length_cons, splitlinesGo, hd]
    rw [if_pos (And.intro trivial hr)]
    congr 1
    apply splitlinesGo_fuel
    · omega
    · exact Nat.le_refl _

theorem splitlines_term {s : List Nat} {t : Nat} {r : List Nat}
    (hd : s.dropWhile nonTerm = t :: r) (hc : ¬ (t = 13 ∧ r.head? = some 10)) :
    splitlines s = s.takeWhile nonTerm :: splitlines r := by
  cases s with
  | nil => simp at hd
  | cons c s2 =>
    have hlen : ((c :: s2).takeWhile nonTerm).length +
        ((c :: s2).dropWhile nonTerm).length = (c :: s2).length := by
      rw [← List.length_append, List.takeWhile_append_dropWhile]
    rw [hd] at hlen
    simp only [List.length_cons] at hlen
    unfold splitlines
    simp only [List.length_cons, splitlinesGo, hd]
    rw [if_neg hc]
    congr 1
    apply splitlinesGo_fuel
    · omega
    · exact Nat.le_refl _

/-! ### Small list helpers -/

theorem getD_set_eq {α : Type} (d v : α) :
    ∀ (l : List α) (i : Nat), i < l.length → (l.set i v).getD i d = v := by
  intro l
  induction l with
  | nil => intro i h; simp at h
  | cons a l2 ih =>
    intro i h
    cases i with
    | zero => rfl
    | succ j =>
      simp only [List.set_cons_succ, List.getD_cons_succ]
      simp only [List.length_cons] at h
      exact ih j (by omega)

theorem getD_set_ne {α : Type} (d v : α) :
    ∀ (l : List α) (i j : Nat), ¬ i = j → (l.set i v).getD j d = l.getD j d := by
  intro l
  induction l with
  | nil => intro i j _; simp [List.set_nil]
  | cons a l2 ih =>
    intro i j hij
    cases i with
    | zero =>
      cases j with
      | zero => exact absurd rfl hij
      | succ k => rfl
    | succ m =>
      cases j with
      | zero => rfl
      | succ k =>
        simp only [List.set_cons_succ, List.getD_cons_succ]
        exact ih m k (by omega)

theorem findIdx_first {α : Type} (p : α → Bool) (d : α) :
    ∀ (l : List α) (j : Nat), j < l.length → p (l.getD j d) = true →
      (∀ i, i < j → p (l.getD i d) = false) → l.findIdx? p = some j := by
  intro l
  induction l with
  | nil => intro j h; intro _ _; simp at h
  | cons a l2 ih =>
    intro j hj hp hlt
    cases j with
    | zero =>
      simp only [List.getD_cons_zero] at hp
      simp [List.findIdx?_cons, hp]
    | succ k =>
      have h0 : p a = false := by
        have := hlt 0 (Nat.succ_pos k)
        simpa using this
      simp only [List.getD_cons_succ] at hp
      simp only [List.length_cons] at hj
      have hk : l2.findIdx? p = some k :=
        ih k (by omega) hp (fun i hi => by
          have := hlt (i + 1) (by omega)
          simpa using this)
      simp [List.findIdx?_cons, h0, List.findIdx?_start_succ, hk]

theorem findIdx_none {α : Type} (p : α → Bool) (l : List α)
    (h : ∀ x ∈ l, p x = false) : l.findIdx? p = none :=
  List.findIdx?_eq_none_iff.mpr h

/-! ### Containment helpers (kept self-contained) -/

theorem inf_of_pref {α : Type} {p s : List α} (h : p <+: s) : p <:+: s := by
  obtain ⟨t, ht⟩ := h
  exact ⟨[], t, by simpa using ht⟩

theorem inf_cons {α : Type} {p rest : List α} {c : α} (h : p <:+: rest) :
    p <:+: (c :: rest) := by
  obtain ⟨u, v, huv⟩ := h
  exact ⟨c :: u, v, by simp [huv]⟩

theorem mem_of_inf {α : Type} {p s : List α} {b : α} (hb : b ∈ p)
    (h : p <:+: s) : b ∈ s := by
  obtain ⟨u, v, huv⟩ := h
  subst huv
  simp [hb]

theorem suff_cons_of_suff {α : Type} {t a : List α} {c : α} (h : t <:+ a) :
    t <:+ (c :: a) := by
  obtain ⟨u, hu⟩ := h
  exact ⟨c :: u, by simp [hu]⟩

theorem head_mem_of_inf {α : Type} {p s : List α} {c : α}
    (h : (c :: p) <:+: s) : c ∈ s :=
  mem_of_inf (by simp) h

/-! ### Behaviour of `replace` -/

theorem mem_replace {α : Type} [DecidableEq α] (pat rep : List α) :
    ∀ (n : Nat) (s : List α), s.length ≤ n →
      ∀ b ∈ replace s pat rep, b ∈ s ∨ b ∈ rep := by
  intro n
  induction n with
  | zero =>
    intro s hs b hb
    have h0 : s = [] := List.eq_nil_of_length_eq_zero (Nat.le_zero.mp hs)
    subst h0
    rw [replace_nil] at hb
    simp at hb
  | succ m ih =>
    intro s hs b hb
    cases s with
    | nil => rw [replace_nil] at hb; simp at hb
    | cons c rest =>
      simp only [List.length_cons] at hs
      by_cases hc : ¬ pat = [] ∧ pat <+: (c :: rest)
      · rw [replace_cons_pos rep hc.1 hc.2] at hb
        rcases List.mem_append.mp hb with h1 | h2
        · exact Or.inr h1
        · have hp : 0 < pat.length := List.length_pos.mpr hc.1
          have hlen : ((c :: rest).drop pat.length).length ≤ m := by
            simp only [List.length_drop, List.length_cons]
            omega
          rcases ih _ hlen b h2 with h3 | h4
          · exact Or.inl (List.mem_of_mem_drop h3)
          · exact Or.inr h4
      · rw [replace_cons_neg rep hc] at hb
        rcases List.mem_cons.mp hb with h1 | h2
        · exact Or.inl (by simp [h1])
        · rcases ih rest (by omega) b h2 with h3 | h4
          · exact Or.inl (List.mem_cons_of_mem c h3)
          · exact Or.inr h4

theorem replace_ne_nil {α : Type} [DecidableEq α] {pat rep : List α}
    (hrep : ¬ rep = []) {s : List α} (hs : ¬ s = []) :
    ¬ replace s pat rep = [] := by
  cases s with
  | nil => exact absurd rfl hs
  | cons c rest =>
    by_cases hc : ¬ pat = [] ∧ pat <+: (c :: rest)
    · rw [replace_cons_pos rep hc.1 hc.2]
      intro h
      exact hrep (List.append_eq_nil.mp h).1
    · rw [replace_cons_neg rep hc]
      simp

theorem replace_no_occ {α : Type} [DecidableEq α] (rep : List α) :
    ∀ {s pat : List α}, ¬ pat <:+: s → replace s pat rep = s := by
  intro s
  induction s with
  | nil => intro pat _; exact replace_nil pat rep
  | cons c rest ih =>
    intro pat hno
    have hc : ¬ (¬ pat = [] ∧ pat <+: (c :: rest)) := by
      rintro ⟨_, hpre⟩
      exact hno (inf_of_pref hpre)
    rw [replace_cons_neg rep hc, ih (fun h => hno (inf_cons h))]

theorem replace_append_left {α : Type} [DecidableEq α] (pat rep : List α) :
    ∀ (a s : List α),
      (∀ t, t <:+ a → ¬ t = [] → ¬ pat <+: (t ++ s)) →
      replace (a ++ s) pat rep = a ++ replace s pat rep := by
  intro a
  induction a with
  | nil => intro s _; simp
  | cons c a2 ih =>
    intro s hcl
    have hnp : ¬ pat <+: (c :: (a2 ++ s)) := by
      have h := hcl (c :: a2) (List.suffix_refl _) (by simp)
      simpa using h
    rw [List.cons_append, replace_cons_neg rep (fun hand => hnp hand.2),
      ih s (fun t ht hne => hcl t (suff_cons_of_suff ht) hne), List.cons_append]

theorem replace_sep {α : Type} [DecidableEq α] (pat rep : List α)
    (hpat : ¬ pat = []) {x : α} (hx : x ∉ pat) :
    ∀ (n : Nat) (a b : List α), a.length ≤ n →
      replace (a ++ x :: b) pat rep =
        replace a pat rep ++ x :: replace b pat rep := by
  have hhead : ∀ b : List α, replace (x :: b) pat rep = x :: replace b pat rep := by
    intro b
    have hc : ¬ (¬ pat = [] ∧ pat <+: (x :: b)) := by
      rintro ⟨_, hpre⟩
      cases pat with
      | nil => exact hpat rfl
      | cons p0 pt =>
        obtain ⟨t, ht⟩ := hpre
        have : p0 = x := by
          have := congrArg (fun l => l.head?) ht
          simpa using this
        exact hx (by simp [this])
    exact replace_cons_neg rep hc
  intro n
  induction n with
  | zero =>
    intro a b ha
    have h0 : a = [] := List.eq_nil_of_length_eq_zero (Nat.le_zero.mp ha)
    subst h0
    simpa using hhead b
  | succ m ih =>
    intro a b ha
    cases a with
    | nil => simpa using hhead b
    | cons c a2 =>
      simp only [List.length_cons] at ha
      by_cases hpre : pat <+: (c :: a2 ++ x :: b)
      · -- the match cannot reach past `x`, so it lies inside `c :: a2`
        obtain ⟨t, ht⟩ := hpre
        have ht2 : pat ++ t = (c :: a2) ++ x :: b := by simpa using ht
        have hle : pat.length ≤ (c :: a2).length := by
          by_contra hgt
          have hxp : pat[(c :: a2).length]? = some x := by
            have h1 : (pat ++ t)[(c :: a2).length]? = pat[(c :: a2).length]? :=
              List.getElem?_append_left (by omega)
            have h2 : ((c :: a2) ++ x :: b)[(c :: a2).length]? = some x := by
              rw [List.getElem?_append_right (Nat.le_refl _)]
              simp
            rw [← h1, ht2, h2]
          exact hx (List.getElem?_mem hxp)
        have hpeq : pat = (c :: a2).take pat.length := by
          have h1 : (pat ++ t).take pat.length = pat := List.take_left _ _
          rw [ht2, List.take_append_of_le_length hle] at h1
          exact h1.symm
        have hpc : pat <+: (c :: a2) := by
          refine ⟨(c :: a2).drop pat.length, ?_⟩
          nth_rewrite 1 [hpeq]
          exact List.take_append_drop _ _
        have hpre1 : pat <+: (c :: (a2 ++ x :: b)) := ⟨t, ht⟩
        have hp : 0 < pat.length := List.length_pos.mpr hpat
        rw [List.cons_append, replace_cons_pos rep hpat hpre1,
          replace_cons_pos rep hpat hpc]
        have hdrop : (c :: (a2 ++ x :: b)).drop pat.length =
            (c :: a2).drop pat.length ++ x :: b := by
          rw [← List.cons_append, List.drop_append_of_le_length hle]
        rw [hdrop, ih ((c :: a2).drop pat.length) b
          (by simp only [List.length_drop, List.length_cons]; omega),
          List.append_assoc]
      · have hpre2 : ¬ pat <+: (c :: a2) := by
          intro h
          obtain ⟨t, ht⟩ := h
          exact hpre ⟨t ++ x :: b, by rw [← List.append_assoc, ht]⟩
        rw [List.cons_append, replace_cons_neg rep (fun hand => hpre (by simpa using hand.2)),
          replace_cons_neg rep (fun hand => hpre2 hand.2), ih a2 b (by omega),
          List.cons_append]

/-! ### Behaviour of `splitlines` -/

theorem splitlines_all_nonTerm {s : List Nat} (hs : ¬ s = [])
    (h : ∀ b ∈ s, nonTerm b = true) : splitlines s = [s] := by
  rw [splitlines_no_term hs (List.dropWhile_eq_nil_iff.mpr h),
    List.takeWhile_eq_self_iff.mpr h]

theorem splitlines_app_lf {A R : List Nat} (hA : ∀ b ∈ A, nonTerm b = true) :
    splitlines (A ++ 10 :: R) = A :: splitlines R := by
  have hd : (A ++ 10 :: R).dropWhile nonTerm = 10 :: R := by
    rw [List.dropWhile_append_of_pos hA, List.dropWhile_cons_of_neg (by simp [nonTerm])]
  have ht : (A ++ 10 :: R).takeWhile nonTerm = A := by
    rw [List.takeWhile_append_of_pos hA, List.takeWhile_cons_of_neg (by simp [nonTerm])]
    simp
  rw [splitlines_term hd (by simp), ht]

theorem splitlines_app_crlf {A R : List Nat} (hA : ∀ b ∈ A, nonTerm b = true) :
    splitlines (A ++ 13 :: 10 :: R) = A :: splitlines R := by
  have hd : (A ++ 13 :: 10 :: R).dropWhile nonTerm = 13 :: 10 :: R := by
    rw [List.dropWhile_append_of_pos hA, List.dropWhile_cons_of_neg (by simp [nonTerm])]
  have ht : (A ++ 13 :: 10 :: R).takeWhile nonTerm = A := by
    rw [List.takeWhile_append_of_pos hA, List.takeWhile_cons_of_neg (by simp [nonTerm])]
    simp
  rw [splitlines_crlf hd (by simp), ht]
  simp

theorem splitlines_app_cr {A R : List Nat} (hA : ∀ b ∈ A, nonTerm b = true)
    (hR : ¬ R.head? = some 10) :
    splitlines (A ++ 13 :: R) = A :: splitlines R := by
  have hd : (A ++ 13 :: R).dropWhile nonTerm = 13 :: R := by
    rw [List.dropWhile_append_of_pos hA, List.dropWhile_cons_of_neg (by simp [nonTerm])]
  have ht : (A ++ 13 :: R).takeWhile nonTerm = A := by
    rw [List.takeWhile_append_of_pos hA, List.takeWhile_cons_of_neg (by simp [nonTerm])]
    simp
  rw [splitlines_term hd (by simp [hR]), ht]

theorem splitlines_chunks_nonTerm :
    ∀ (n : Nat) (s : List Nat), s.length ≤ n →
      ∀ l ∈ splitlines s, ∀ b ∈ l, nonTerm b = true := by
  intro n
  induction n with
  | zero =>
    intro s hs
    have h0 : s = [] := List.eq_nil_of_length_eq_zero (Nat.le_zero.mp hs)
    subst h0
    simp [splitlines_nil]
  | succ m ih =>
    intro s hs l hl b hb
    by_cases h0 : s = []
    · subst h0; simp [splitlines_nil] at hl
    have htake : ∀ x ∈ s.takeWhile nonTerm, nonTerm x = true := by
      intro x hx
      have h1 := List.all_takeWhile (p := nonTerm) (l := s)
      exact List.all_eq_true.mp h1 x hx
    have hlen : (s.takeWhile nonTerm).length + (s.dropWhile nonTerm).length
        = s.length := by
      rw [← List.length_append, List.takeWhile_append_dropWhile]
    cases hd : s.dropWhile nonTerm with
    | nil =>
      rw [splitlines_no_term h0 hd] at hl
      simp only [List.mem_singleton] at hl
      subst hl
      exact htake b hb
    | cons t r =>
      rw [hd] at hlen
      simp only [List.length_cons] at hlen
      by_cases hc : t = 13 ∧ r.head? = some 10
      · rw [splitlines_crlf (hc.1 ▸ hd) hc.2] at hl
        rcases List.mem_cons.mp hl with h1 | h2
        · subst h1; exact htake b hb
        · have htl : r.tail.length ≤ r.length := by cases r <;> simp
          exact ih r.tail (by omega) l h2 b hb
      · rw [splitlines_term hd hc] at hl
        rcases List.mem_cons.mp hl with h1 | h2
        · subst h1; exact htake b hb
        · exact ih r (by omega) l h2 b hb

theorem replace_head_ne_lf {p q : List Nat} (hq : ¬ q = [])
    (hqt : ∀ b ∈ q, nonTerm b = true) {r : List Nat}
    (hr : ¬ r.head? = some 10) : ¬ (replace r p q).head? = some 10 := by
  cases r with
  | nil => rw [replace_nil]; simp
  | cons c rest =>
    by_cases hc : ¬ p = [] ∧ p <+: (c :: rest)
    · rw [replace_cons_pos q hc.1 hc.2]
      cases q with
      | nil => exact absurd rfl hq
      | cons q0 qt =>
        simp only [List.cons_append, List.head?_cons]
        intro h
        have h10 := hqt q0 (by simp)
        rw [Option.some.injEq] at h
        subst h
        simp [nonTerm] at h10
    · rw [replace_cons_neg q hc]
      simpa using hr

/-- `replace` commutes with `splitlines` when the pattern and the replacement
are nonempty and contain no line terminators: occurrences never span a line
break, so the raw-bytes substitution acts line by line. -/
theorem splitlines_replace (p q : List Nat) (hp : ¬ p = []) (hq : ¬ q = [])
    (hpt : ∀ b ∈ p, nonTerm b = true) (hqt : ∀ b ∈ q, nonTerm b = true) :
    ∀ (n : Nat) (s : List Nat), s.length ≤ n →
      splitlines (replace s p q) = (splitlines s).map (fun l => replace l p q) := by
  have hx10 : (10 : Nat) ∉ p := fun hm => by
    have := hpt 10 hm
    simp [nonTerm] at this
  have hx13 : (13 : Nat) ∉ p := fun hm => by
    have := hpt 13 hm
    simp [nonTerm] at this
  have hrepl : ∀ s : List Nat, ∀ b ∈ replace s p q, nonTerm b = true ∨ b ∈ s := by
    intro s b hb
    rcases mem_replace p q s.length s (Nat.le_refl _) b hb with h1 | h2
    · exact Or.inr h1
    · exact Or.inl (hqt b h2)
  intro n
  induction n with
  | zero =>
    intro s hs
    have h0 : s = [] := List.eq_nil_of_length_eq_zero (Nat.le_zero.mp hs)
    subst h0
    rw [replace_nil, splitlines_nil]
    simp
  | succ m ih =>
    intro s hs
    by_cases h0 : s = []
    · subst h0
      rw [replace_nil, splitlines_nil]
      simp
    have htake : ∀ x ∈ s.takeWhile nonTerm, nonTerm x = true := by
      intro x hx
      exact List.all_eq_true.mp (List.all_takeWhile (p := nonTerm) (l := s)) x hx
    have hlen : (s.takeWhile nonTerm).length + (s.dropWhile nonTerm).length
        = s.length := by
      rw [← List.length_append, List.takeWhile_append_dropWhile]
    have hsplit : s.takeWhile nonTerm ++ s.dropWhile nonTerm = s :=
      List.takeWhile_append_dropWhile nonTerm s
    have hreplA : ∀ b ∈ replace (s.takeWhile nonTerm) p q, nonTerm b = true := by
      intro b hb
      rcases hrepl _ b hb with h1 | h2
      · exact h1
      · exact htake b h2
    cases hd : s.dropWhile nonTerm with
    | nil =>
      -- terminator-free input: one chunk on both sides
      have hall : ∀ b ∈ s, nonTerm b = true := List.dropWhile_eq_nil_iff.mp hd
      have hfree : ∀ b ∈ replace s p q, nonTerm b = true := by
        intro b hb
        rcases hrepl s b hb with h1 | h2
        · exact h1
        · exact hall b h2
      rw [splitlines_all_nonTerm (replace_ne_nil hq h0) hfree,
        splitlines_all_nonTerm h0 hall]
      simp
    | cons t r =>
      rw [hd] at hlen
      simp only [List.length_cons] at hlen hs
      have hterm : nonTerm t = false := by
        have h1 := List.head?_dropWhile_not nonTerm s
        rw [hd] at h1
        simp only [List.head?_cons] at h1
        simpa using h1
      have ht1013 : t = 10 ∨ t = 13 := by
        by_contra hno
        push_neg at hno
        simp [nonTerm, hno.1, hno.2] at hterm
      have hsA : s = s.takeWhile nonTerm ++ t :: r := by rw [← hd, hsplit]
      rcases ht1013 with h10 | h13
      · -- LF
        subst h10
        have hrw : replace s p q =
            replace (s.takeWhile nonTerm) p q ++ 10 :: replace r p q := by
          nth_rewrite 1 [hsA]
          exact replace_sep p q hp hx10 _ _ _ (Nat.le_refl _)
        rw [hrw, splitlines_app_lf hreplA]
        nth_rewrite 2 [hsA]
        rw [splitlines_app_lf htake]
        rw [List.map_cons, ih r (by omega)]
      · subst h13
        cases hr10 : r.head? with
        | some v =>
          by_cases hv : v = 10
          · -- CRLF
            subst hv
            obtain ⟨r2, hr2⟩ : ∃ r2, r = 10 :: r2 := by
              cases r with
              | nil => simp at hr10
              | cons rh rt =>
                simp only [List.head?_cons, Option.some.injEq] at hr10
                exact ⟨rt, by rw [hr10]⟩
            subst hr2
            have hrw : replace s p q = replace (s.takeWhile nonTerm) p q ++
                13 :: 10 :: replace r2 p q := by
              nth_rewrite 1 [hsA]
              rw [replace_sep p q hp hx13 _ _ _ (Nat.le_refl _)]
              congr 1
              simp only [List.cons.injEq, true_and]
              have h1 : replace (10 :: r2) p q =
                  replace ([] : List Nat) p q ++ 10 :: replace r2 p q :=
                replace_sep p q hp hx10 0 [] r2 (Nat.le_refl _)
              rw [replace_nil] at h1
              simpa using h1
            rw [hrw, splitlines_app_crlf hreplA]
            nth_rewrite 2 [hsA]
            rw [splitlines_app_crlf htake]
            simp only [List.length_cons] at hlen
            rw [List.map_cons, ih r2 (by omega)]
          · -- CR followed by a non-LF byte
            have hrne : ¬ r.head? = some 10 := by
              rw [hr10]
              intro hcon
              rw [Option.some.injEq] at hcon
              exact hv hcon
            have hrw : replace s p q = replace (s.takeWhile nonTerm) p q ++
                13 :: replace r p q := by
              nth_rewrite 1 [hsA]
              exact replace_sep p q hp hx13 _ _ _ (Nat.le_refl _)
            rw [hrw, splitlines_app_cr hreplA (replace_head_ne_lf hq hqt hrne)]
            nth_rewrite 2 [hsA]
            rw [splitlines_app_cr htake hrne]
            rw [List.map_cons, ih r (by omega)]
        | none =>
          -- CR at the very end
          have hrne : ¬ r.head? = some 10 := by rw [hr10]; simp
          have hrw : replace s p q = replace (s.takeWhile nonTerm) p q ++
              13 :: replace r p q := by
            nth_rewrite 1 [hsA]
            exact replace_sep p q hp hx13 _ _ _ (Nat.le_refl _)
          rw [hrw, splitlines_app_cr hreplA (replace_head_ne_lf hq hqt hrne)]
          nth_rewrite 2 [hsA]
          rw [splitlines_app_cr htake hrne]
          rw [List.map_cons, ih r (by omega)]

/-! ### Occurrences across a separator byte, and `joinNL` -/

theorem pref_through_sep {α : Type} {p a b : List α} {x : α}
    (h : p <+: (a ++ x :: b)) (hx : x ∉ p) : p <+: a := by
  obtain ⟨t, ht⟩ := h
  have hle : p.length ≤ a.length := by
    by_contra hgt
    have hxp : p[a.length]? = some x := by
      have h1 : (p ++ t)[a.length]? = p[a.length]? :=
        List.getElem?_append_left (by omega)
      have h2 : (a ++ x :: b)[a.length]? = some x := by
        rw [List.getElem?_append_right (Nat.le_refl _)]
        simp
      rw [← h1, ht, h2]
    exact hx (List.getElem?_mem hxp)
  have hpeq : p = a.take p.length := by
    have h1 : (p ++ t).take p.length = p := List.take_left _ _
    rw [ht, List.take_append_of_le_length hle] at h1
    exact h1.symm
  refine ⟨a.drop p.length, ?_⟩
  nth_rewrite 1 [hpeq]
  exact List.take_append_drop _ _

theorem suff_through_sep {α : Type} {t a b : List α} {x : α}
    (h : t <:+ (a ++ x :: b)) :
    (∃ t2, t2 <:+ a ∧ t = t2 ++ x :: b) ∨ t <:+ b := by
  obtain ⟨u, hu⟩ := h
  by_cases hle : u.length ≤ a.length
  · left
    have h1 : (u ++ t).drop u.length = t := List.drop_left _ _
    rw [hu, List.drop_append_of_le_length hle] at h1
    exact ⟨a.drop u.length, ⟨a.take u.length, List.take_append_drop _ _⟩, h1.symm⟩
  · right
    push_neg at hle
    have h1 : (u ++ t).drop u.length = t := List.drop_left _ _
    rw [hu] at h1
    have h2 : (a ++ x :: b).drop u.length = b.drop (u.length - a.length - 1) := by
      rw [List.drop_append_eq_append_drop, List.drop_eq_nil_of_le (by omega)]
      have h3 : u.length - a.length = (u.length - a.length - 1) + 1 := by omega
      rw [h3]
      simp
    rw [h2] at h1
    exact ⟨b.take (u.length - a.length - 1), by rw [← h1]; exact List.take_append_drop _ _⟩

theorem inf_of_pref_suff {α : Type} {p t s : List α} (h1 : p <+: t)
    (h2 : t <:+ s) : p <:+: s := by
  obtain ⟨v, hv⟩ := h1
  obtain ⟨u, hu⟩ := h2
  exact ⟨u, v, by rw [← hu, ← hv, List.append_assoc]⟩

theorem inf_through_sep {α : Type} {p a b : List α} {x : α}
    (h : p <:+: (a ++ x :: b)) (hx : x ∉ p) : p <:+: a ∨ p <:+: b := by
  obtain ⟨u, v, huv⟩ := h
  have hsuff : (p ++ v) <:+ (a ++ x :: b) := ⟨u, by rw [← huv, List.append_assoc]⟩
  rcases suff_through_sep hsuff with ⟨t2, ht2a, ht2⟩ | hb
  · have hpp : p <+: (t2 ++ x :: b) := ⟨v, ht2⟩
    exact Or.inl (inf_of_pref_suff (pref_through_sep hpp hx) ht2a)
  · exact Or.inr (inf_of_pref_suff ⟨v, rfl⟩ hb)

theorem joinNL_cons {l : List Nat} {ls : List (List Nat)} (h : ¬ ls = []) :
    joinNL (l :: ls) = l ++ 10 :: joinNL ls := by
  cases ls with
  | nil => exact absurd rfl h
  | cons l2 ls2 => rfl

theorem mem_joinNL {b : Nat} :
    ∀ {F : List (List Nat)}, b ∈ joinNL F → b = 10 ∨ ∃ l ∈ F, b ∈ l := by
  intro F
  induction F with
  | nil => intro h; simp [joinNL] at h
  | cons l ls ih =>
    intro hb
    cases ls with
    | nil =>
      refine Or.inr ⟨l, by simp, ?_⟩
      simpa [joinNL] using hb
    | cons l2 ls2 =>
      rw [joinNL_cons (by simp)] at hb
      rcases List.mem_append.mp hb with h1 | h2
      · exact Or.inr ⟨l, by simp, h1⟩
      · rcases List.mem_cons.mp h2 with h3 | h4
        · exact Or.inl h3
        · rcases ih h4 with h5 | ⟨l3, hl3, hbl3⟩
          · exact Or.inl h5
          · exact Or.inr ⟨l3, by simp [hl3], hbl3⟩

theorem not_mem_joinNL {b : Nat} (hb : ¬ b = 10) {F : List (List Nat)}
    (hF : ∀ l ∈ F, b ∉ l) : b ∉ joinNL F := by
  intro hmem
  rcases mem_joinNL hmem with h1 | ⟨l, hl, hbl⟩
  · exact hb h1
  · exact hF l hl hbl

theorem inf_joinNL {p : List Nat} (hp : ¬ p = []) (h10 : (10 : Nat) ∉ p) :
    ∀ {F : List (List Nat)}, p <:+: joinNL F → ∃ l ∈ F, p <:+: l := by
  intro F
  induction F with
  | nil =>
    intro h
    obtain ⟨u, v, huv⟩ := h
    simp only [joinNL] at huv
    rcases List.append_eq_nil.mp huv with ⟨h1, _⟩
    exact absurd (List.append_eq_nil.mp h1).2 hp
  | cons l ls ih =>
    intro h
    cases ls with
    | nil => exact ⟨l, by simp, by simpa [joinNL] using h⟩
    | cons l2 ls2 =>
      rw [joinNL_cons (by simp)] at h
      rcases inf_through_sep h h10 with h1 | h2
      · exact ⟨l, by simp, h1⟩
      · obtain ⟨l3, hl3, hi⟩ := ih h2
        exact ⟨l3, by simp [hl3], hi⟩

/-! ### Behaviour of the `transformLines` loop -/

theorem findIdx_found {α : Type} (p : α → Bool) (d : α) :
    ∀ (l : List α) (i : Nat), l.findIdx? p = some i →
      i < l.length ∧ p (l.getD i d) = true := by
  intro l
  induction l with
  | nil => intro i h; simp at h
  | cons a l2 ih =>
    intro i h
    rw [List.findIdx?_cons] at h
    by_cases hp : p a
    · rw [if_pos hp] at h
      rw [Option.some.injEq] at h
      subst h
      exact ⟨by simp, by simpa using hp⟩
    · rw [if_neg hp] at h
      simp only [Bool.not_eq_true] at hp
      rw [List.findIdx?_start_succ] at h
      rcases Option.map_eq_some'.mp h with ⟨k, hk, hik⟩
      subst hik
      obtain ⟨h1, h2⟩ := ih k hk
      exact ⟨by simp only [List.length_cons]; omega, by simpa using h2⟩

theorem transformLines_chain :
    ∀ (o : List (List Nat)) (L F : List (List Nat)),
      transformLines o L = .ok F →
      F.length = L.length ∧ ∀ j, rwChain o (L.getD j []) (F.getD j []) := by
  intro o
  induction o with
  | nil =>
    intro L F h
    simp only [transformLines] at h
    rw [Except.ok.injEq] at h
    subst h
    exact ⟨rfl, fun j => ⟨[], List.nil_sublist _, rfl⟩⟩
  | cons cat cats ih =>
    intro L F h
    simp only [transformLines] at h
    cases hidx : L.findIdx? (fun line => decide (cat <:+: line)) with
    | none => rw [hidx] at h; exact absurd h (by simp)
    | some i =>
      rw [hidx] at h
      obtain ⟨hilt, _⟩ := findIdx_found _ ([] : List Nat) L i hidx
      obtain ⟨hlen, hchain⟩ := ih _ F h
      rw [List.length_set] at hlen
      refine ⟨hlen, fun j => ?_⟩
      by_cases hij : i = j
      · subst hij
        obtain ⟨cs, hsub, hfold⟩ := hchain i
        rw [getD_set_eq _ _ _ _ hilt] at hfold
        exact ⟨cat :: cs, List.Sublist.cons₂ cat hsub, by simpa using hfold⟩
      · obtain ⟨cs, hsub, hfold⟩ := hchain j
        rw [getD_set_ne _ _ _ _ _ hij] at hfold
        exact ⟨cs, List.Sublist.cons cat hsub, hfold⟩

theorem transformLines_frame :
    ∀ (o : List (List Nat)) (L F : List (List Nat)),
      transformLines o L = .ok F →
      ∀ j, (∀ c ∈ o, ¬ c <:+: L.getD j []) → F.getD j [] = L.getD j [] := by
  intro o
  induction o with
  | nil =>
    intro L F h j _
    simp only [transformLines] at h
    rw [Except.ok.injEq] at h
    subst h
    rfl
  | cons cat cats ih =>
    intro L F h j hno
    simp only [transformLines] at h
    cases hidx : L.findIdx? (fun line => decide (cat <:+: line)) with
    | none => rw [hidx] at h; exact absurd h (by simp)
    | some i =>
      rw [hidx] at h
      obtain ⟨hilt, hpi⟩ := findIdx_found _ ([] : List Nat) L i hidx
      have hij : ¬ i = j := by
        intro hcon
        subst hcon
        have hcat : cat <:+: L.getD i [] := of_decide_eq_true hpi
        exact hno cat (by simp) hcat
      have hLj : (L.set i (rwLine cat (L.getD i []))).getD j [] = L.getD j [] :=
        getD_set_ne _ _ _ _ _ hij
      have h2 := ih _ F h j (fun c hc => by
        rw [hLj]
        exact hno c (by simp [hc]))
      rw [h2, hLj]

/-! ### The loop as in-place rewriting at fixed indices -/

theorem getD_map_range {β : Type} (d : β) (f : Nat → β) (n j : Nat)
    (h : j < n) : ((List.range n).map f).getD j d = f j := by
  rw [List.getD_eq_getElem?_getD, List.getElem?_map, List.getElem?_range h]
  rfl

theorem tstate_length (J : List Nat → Nat) (done L : List (List Nat)) :
    (tstate J done L).length = L.length := by
  simp [tstate]

theorem tstate_getD (J : List Nat → Nat) (done L : List (List Nat)) {j : Nat}
    (h : j < L.length) :
    (tstate J done L).getD j [] =
      match done.find? (fun c => decide (J c = j)) with
      | some c => rwLine c (L.getD j [])
      | none => L.getD j [] := by
  rw [tstate]
  exact getD_map_range _ _ _ _ h

theorem tstate_nil (J : List Nat → Nat) (L : List (List Nat)) :
    tstate J [] L = L := by
  apply List.ext_getElem
  · rw [tstate_length]
  · intro j h1 h2
    rw [← List.getD_eq_getElem (tstate J [] L) ([] : List Nat) h1,
      ← List.getD_eq_getElem L ([] : List Nat) h2,
      tstate_getD J [] L h2]
    simp

theorem find?_append_none {α : Type} {p : α → Bool} {l1 : List α} (l2 : List α)
    (h : l1.find? p = none) : (l1 ++ l2).find? p = l2.find? p := by
  induction l1 with
  | nil => simp
  | cons a t ih =>
    by_cases hp : p a
    · rw [List.find?_cons_of_pos _ hp] at h
      exact absurd h (by simp)
    · rw [List.find?_cons_of_neg _ hp] at h
      rw [List.cons_append, List.find?_cons_of_neg _ hp, ih h]

theorem find?_append_some {α : Type} {p : α → Bool} {l1 : List α} (l2 : List α)
    {a : α} (h : l1.find? p = some a) : (l1 ++ l2).find? p = some a := by
  induction l1 with
  | nil => simp at h
  | cons b t ih =>
    by_cases hp : p b
    · rw [List.find?_cons_of_pos _ hp] at h
      rw [List.cons_append, List.find?_cons_of_pos _ hp]
      exact h
    · rw [List.find?_cons_of_neg _ hp] at h
      rw [List.cons_append, List.find?_cons_of_neg _ hp, ih h]

theorem find?_unique {α : Type} {p : α → Bool} {l : List α} {c : α} (hc : c ∈ l)
    (hpc : p c = true) (hu : ∀ a ∈ l, p a = true → a = c) :
    l.find? p = some c := by
  induction l with
  | nil => simp at hc
  | cons a t ih =>
    by_cases hp : p a
    · rw [List.find?_cons_of_pos _ hp, hu a (by simp) hp]
    · rw [List.find?_cons_of_neg _ hp]
      have hct : c ∈ t := by
        rcases List.mem_cons.mp hc with h1 | h2
        · subst h1; exact absurd hpc (by simpa using hp)
        · exact h2
      exact ih hct (fun a2 ha2 hpa2 => hu a2 (by simp [ha2]) hpa2)

/-- Main loop invariant: when every category locates its own dedicated line
and no rewrite creates another category's name, the loop rewrites exactly the
lines `J c`, in place, independently of the enumeration order. -/
theorem transformLines_state (J : List Nat → Nat) (o : List (List Nat))
    (L : List (List Nat))
    (hlen : ∀ c ∈ o, J c < L.length)
    (huniq : ∀ c ∈ o, ∀ j, j < L.length → (c <:+: L.getD j [] ↔ j = J c))
    (hinj : ∀ c ∈ o, ∀ d ∈ o, ¬ c = d → ¬ J c = J d)
    (hrw : ∀ c ∈ o, ∀ d ∈ o, ¬ c = d → ¬ d <:+: rwLine c (L.getD (J c) [])) :
    ∀ (os : List (List Nat)), os.Nodup → (∀ c ∈ os, c ∈ o) →
      ∀ (done : List (List Nat)), (∀ c ∈ done, c ∈ o) →
        (∀ c ∈ os, c ∉ done) →
        transformLines os (tstate J done L) =
          .ok (tstate J (done ++ os) L) := by
  intro os
  induction os with
  | nil =>
    intro _ _ done _ _
    simp only [transformLines, List.append_nil]
  | cons c os2 ih =>
    intro hnd hsub done hdsub hdisj
    have hco : c ∈ o := hsub c (by simp)
    have hcJ : J c < L.length := hlen c hco
    have hcdone : c ∉ done := hdisj c (by simp)
    have hfind_none : done.find? (fun d => decide (J d = J c)) = none := by
      rw [List.find?_eq_none]
      intro d hd
      simp only [decide_eq_true_eq]
      intro hJ
      have hdo : d ∈ o := hdsub d hd
      have hne : ¬ c = d := fun hcd => hcdone (hcd ▸ hd)
      exact hinj c hco d hdo hne hJ.symm
    have hMJc : (tstate J done L).getD (J c) [] = L.getD (J c) [] := by
      rw [tstate_getD J done L hcJ, hfind_none]
    have hfound : (tstate J done L).findIdx?
        (fun line => decide (c <:+: line)) = some (J c) := by
      apply findIdx_first _ ([] : List Nat)
      · rw [tstate_length]; exact hcJ
      · rw [hMJc]
        exact decide_eq_true ((huniq c hco (J c) hcJ).mpr rfl)
      · intro i hi
        have hiL : i < L.length := by omega
        rw [tstate_getD J done L hiL]
        cases hf : done.find? (fun d => decide (J d = i)) with
        | some d =>
          have hdmem : d ∈ done := List.mem_of_find?_eq_some hf
          have hdo : d ∈ o := hdsub d hdmem
          have hJd : J d = i := by
            have h2 := List.find?_some hf
            simpa using h2
          have hne : ¬ d = c := fun hdc => hcdone (hdc ▸ hdmem)
          subst hJd
          exact decide_eq_false (hrw d hdo c hco hne)
        | none =>
          apply decide_eq_false
          intro hinf
          have h3 := (huniq c hco i hiL).mp hinf
          omega
    have hstep : (tstate J done L).set (J c)
        (rwLine c ((tstate J done L).getD (J c) [])) =
        tstate J (done ++ [c]) L := by
      rw [hMJc]
      apply List.ext_getElem
      · rw [List.length_set, tstate_length, tstate_length]
      · intro j h1 h2
        have hjL : j < L.length := by rw [tstate_length] at h2; exact h2
        rw [← List.getD_eq_getElem _ ([] : List Nat) h1,
          ← List.getD_eq_getElem _ ([] : List Nat) h2]
        by_cases hj : J c = j
        · subst hj
          rw [getD_set_eq _ _ _ _ (by rw [tstate_length]; exact hcJ),
            tstate_getD J _ L hcJ, find?_append_none _ hfind_none]
          simp
        · rw [getD_set_ne _ _ _ _ _ hj, tstate_getD J done L hjL,
            tstate_getD J _ L hjL]
          cases hf : done.find? (fun d => decide (J d = j)) with
          | some d => rw [find?_append_some _ hf]
          | none =>
            rw [find?_append_none _ hf]
            simp [hj]
    simp only [transformLines, hfound]
    rw [hstep,
      ih (List.Nodup.of_cons hnd) (fun e he => hsub e (by simp [he]))
        (done ++ [c])
        (fun e he => by
          rcases List.mem_append.mp he with h1 | h2
          · exact hdsub e h1
          · simp only [List.mem_singleton] at h2
            subst h2
            exact hco)
        (fun e he hmem => by
          rcases List.mem_append.mp hmem with h1 | h2
          · exact hdisj e (by simp [he]) h1
          · simp only [List.mem_singleton] at h2
            subst h2
            have : e ∈ os2 := he
            exact (List.nodup_cons.mp hnd).1 this)]
    rw [List.append_assoc]
    simp

/-! ### The per-line rewrite on an entry-shaped line -/

theorem head_mem_of_suff {α : Type} {a tt : List α} {c : α}
    (h : (c :: tt) <:+ a) : c ∈ a := by
  obtain ⟨u, hu⟩ := h
  rw [← hu]
  simp

theorem pref_head {α : Type} {p0 : α} {pt s : List α} (h : (p0 :: pt) <+: s) :
    s.head? = some p0 := by
  obtain ⟨t, ht⟩ := h
  rw [← ht]
  simp

theorem replace_self_app {α : Type} [DecidableEq α] {pat : List α} (rep : List α)
    (hpat : ¬ pat = []) (s : List α) :
    replace (pat ++ s) pat rep = rep ++ replace s pat rep := by
  cases hp : pat with
  | nil => exact absurd hp hpat
  | cons p0 pt =>
    subst hp
    rw [List.cons_append,
      replace_cons_pos rep (by simp) ⟨s, by simp⟩]
    congr 1
    rw [show (p0 :: (pt ++ s)).drop (p0 :: pt).length = s from by
      rw [← List.cons_append]
      exact List.drop_left _ _]

theorem catPat_ne_nil (cat : List Nat) : ¬ catPat cat = [] := by
  simp [catPat]

theorem catPat_cons (cat : List Nat) :
    catPat cat = 40 :: (34 :: (cat ++ [34, 44, 32])) := by
  simp [catPat]

theorem rwLine_entry (cat pre r : List Nat)
    (hpre40 : (40 : Nat) ∉ pre) (hpre41 : (41 : Nat) ∉ pre)
    (hr40 : (40 : Nat) ∉ r) (hr41 : (41 : Nat) ∉ r) :
    rwLine cat (pre ++ catPat cat ++ r ++ [41, 44]) = pre ++ r ++ [44] := by
  have h1 : replace (pre ++ catPat cat ++ r ++ [41, 44]) (catPat cat) [] =
      pre ++ (r ++ [41, 44]) := by
    have hassoc : pre ++ catPat cat ++ r ++ [41, 44] =
        pre ++ (catPat cat ++ (r ++ [41, 44])) := by
      simp [List.append_assoc]
    rw [hassoc,
      replace_append_left (catPat cat) [] pre (catPat cat ++ (r ++ [41, 44]))
        (fun t ht htne hpref => by
          cases t with
          | nil => exact htne rfl
          | cons th tt =>
            have hth : th ∈ pre := head_mem_of_suff ht
            rw [catPat_cons] at hpref
            have hh : th = 40 := by
              have h2 := pref_head hpref
              simpa using h2
            exact hpre40 (hh ▸ hth)),
      replace_self_app [] (catPat_ne_nil cat) (r ++ [41, 44]),
      replace_no_occ [] (fun hocc => by
        rw [catPat_cons] at hocc
        have h40 : (40 : Nat) ∈ r ++ [41, 44] := head_mem_of_inf hocc
        rcases List.mem_append.mp h40 with h2 | h2
        · exact hr40 h2
        · simp at h2)]
    simp
  rw [rwLine, h1]
  have hassoc2 : pre ++ (r ++ [41, 44]) = (pre ++ r) ++ [41, 44] := by
    simp [List.append_assoc]
  rw [hassoc2,
    replace_append_left [41, 44] [44] (pre ++ r) [41, 44]
      (fun t ht htne hpref => by
        cases t with
        | nil => exact htne rfl
        | cons th tt =>
          have hth : th ∈ pre ++ r := head_mem_of_suff ht
          have hh : th = 41 := by
            have h2 := pref_head hpref
            simpa using h2
          subst hh
          rcases List.mem_append.mp hth with h2 | h2
          · exact hpre41 h2
          · exact hr41 h2),
    show replace [41, 44] [41, 44] [44] = [44] from by decide,
    List.append_assoc]

theorem rwLine_id {cat line : List Nat} (h1 : ¬ catPat cat <:+: line)
    (h2 : ¬ [41, 44] <:+: line) : rwLine cat line = line := by
  rw [rwLine, replace_no_occ _ h1, replace_no_occ _ h2]

/-! ### Single-character `replace` is a pointwise map -/

theorem replace_single {α : Type} [DecidableEq α] (x y : α) :
    ∀ s : List α, replace s [x] [y] =
      s.map (fun c => if c = x then y else c) := by
  intro s
  induction s with
  | nil => rw [replace_nil]; rfl
  | cons c rest ih =>
    by_cases hc : c = x
    · subst hc
      rw [replace_cons_pos [y] (by simp) ⟨rest, rfl⟩]
      simp only [List.length_singleton, List.drop_succ_cons, List.drop_zero]
      rw [ih]
      simp
    · have hnp : ¬ ([x] : List α) <+: (c :: rest) := by
        intro hpre
        have h2 := pref_head hpre
        simp only [List.head?_cons, Option.some.injEq] at h2
        exact hc h2
      rw [replace_cons_neg [y] (fun hand => hnp hand.2), ih]
      simp [hc]

/-! ## The claims -/

/-- Claim C6: for every version string `v`, `get_output_path` returns
`"src/tables/v" ++ v` with every `.` (byte 46) replaced by `_` (byte 95),
followed by the `.rs` extension; in particular `"15.0.0"` maps to
`"src/tables/v15_0_0.rs"` and `"14.0.0"` to `"src/tables/v14_0_0.rs"`. -/
theorem c6_output_path (v : String) :
    get_output_path v = String.mk (("src/tables/v").data ++
        v.data.map (fun ch => if ch = Char.ofNat 46 then Char.ofNat 95 else ch) ++
        (".rs").data) ∧
      get_output_path "15.0.0" = "src/tables/v15_0_0.rs" ∧
      get_output_path "14.0.0" = "src/tables/v14_0_0.rs" := by
  refine ⟨?_, by decide, by decide⟩
  rw [get_output_path, replace_single]

/-- Claim C9: `CATEGORIES` is a fixed enumeration of 30 distinct leaf
general-category names, contains none of the eight aggregate names, and
the external generator is invoked with exactly that eight-name exclusion
list on its command line. -/
theorem c9_categories :
    CATEGORY_NAMES.length = 30 ∧ CATEGORIES.length = 30 ∧
      CATEGORY_NAMES.Nodup ∧ CATEGORIES.Nodup ∧
      (∀ n ∈ AGGREGATE_NAMES, n ∉ CATEGORY_NAMES) ∧
      AGGREGATE_NAMES.length = 8 ∧ EXCLUDED_NAMES.Perm AGGREGATE_NAMES ∧
      ∀ d : String, ucd_generate_command d =
        "ucd-generate general-category " ++ d ++ " --exclude=" ++
          String.intercalate "," EXCLUDED_NAMES := by
  refine ⟨by decide, by decide, by decide, by decide, by decide, by decide,
    by decide, ?_⟩
  intro d
  rw [ucd_generate_command,
    show " --exclude=Separator,Symbol,Cased_Letter,Letter,Mark,Number,Other,Punctuation" =
      " --exclude=" ++ String.intercalate "," EXCLUDED_NAMES from by decide,
    ← String.append_assoc]

/-- Claim C7: a failing run of `main` (bad arity, fetch failure, generator
failure, or an exception in `transform_code`) leaves the file store
untouched and never reaches the write step; a successful run writes exactly
the value returned by a completed `transform_code` call, to the
version-derived path. -/
theorem c7_no_partial_output (argv : List String) (fetchOk : Bool)
    (genResult : Option (List Nat)) (order : List (List Nat))
    (files : List (String × List Nat)) :
    (¬ (mainRun argv fetchOk genResult order files).outcome = .success →
        (mainRun argv fetchOk genResult order files).files = files ∧
          MainStep.writeStep ∉ (mainRun argv fetchOk genResult order files).steps) ∧
      ((mainRun argv fetchOk genResult order files).outcome = .success →
        ∃ code out, genResult = some code ∧ transform_code order code = .ok out ∧
          (mainRun argv fetchOk genResult order files).files =
            setFile files (get_output_path (argv.getD 1 "")) out) := by
  simp only [mainRun]
  by_cases ha : argv.length ≠ 2
  · rw [if_pos ha]
    exact ⟨fun _ => ⟨rfl, by simp⟩, fun hcon => by simp at hcon⟩
  · rw [if_neg ha]
    cases fetchOk with
    | false =>
      rw [if_pos rfl]
      exact ⟨fun _ => ⟨rfl, by simp⟩, fun hcon => by simp at hcon⟩
    | true =>
      rw [if_neg (by simp)]
      split
      · exact ⟨fun _ => ⟨rfl, by simp⟩, fun hcon => by simp at hcon⟩
      · rename_i x code
        split
        · exact ⟨fun _ => ⟨rfl, by simp⟩, fun hcon => by simp at hcon⟩
        · rename_i out heq2
          exact ⟨fun hne => absurd rfl hne,
            fun _ => ⟨code, out, rfl, heq2, rfl⟩⟩

/-- Witness for C7 at a concrete failing run: a fetch failure leaves a
pre-existing file store unchanged. -/
theorem c7_witness :
    (mainRun ["generate_tables.py", "15.0.0"] false none CATEGORIES
        [("src/tables/v15_0_0.rs", [1])]).files =
      [("src/tables/v15_0_0.rs", [1])] :=
  ((c7_no_partial_output ["generate_tables.py", "15.0.0"] false none CATEGORIES
    [("src/tables/v15_0_0.rs", [1])]).1 (by decide)).1

/-- Claim C8: a run whose argument vector does not consist of exactly the
program name plus one positional argument prints the one-line usage banner,
exits with status 1 and performs no pipeline step; with exactly one
positional argument the run never takes the usage exit, and on success it
uses that argument as the version string for the output path. -/
theorem c8_cli_arity (argv : List String) (fetchOk : Bool)
    (genResult : Option (List Nat)) (order : List (List Nat))
    (files : List (String × List Nat)) :
    (¬ argv.length = 2 →
        mainRun argv fetchOk genResult order files =
          ⟨.usageExit, files, [USAGE], [], 1⟩) ∧
      (argv.length = 2 →
        ¬ (mainRun argv fetchOk genResult order files).outcome = .usageExit) ∧
      (argv.length = 2 →
        ∀ code out, genResult = some code → transform_code order code = .ok out →
          fetchOk = true →
          mainRun argv fetchOk genResult order files =
            ⟨.success, setFile files (get_output_path (argv.getD 1 "")) out, [],
              [.fetchStep, .generateStep, .transformStep, .writeStep], 0⟩) ∧
      ∀ ch ∈ USAGE.data, ¬ ch = Char.ofNat 10 := by
  refine ⟨?_, ?_, ?_, by decide⟩
  · intro ha
    simp only [mainRun]
    rw [if_pos ha]
  · intro ha
    simp only [mainRun]
    rw [if_neg (not_not_intro ha)]
    cases fetchOk with
    | false => rw [if_pos rfl]; simp
    | true =>
      rw [if_neg (by simp)]
      split
      · simp
      · split
        · simp
        · simp
  · intro ha code out hgen htc hf
    subst hgen
    subst hf
    simp only [mainRun]
    rw [if_neg (not_not_intro ha), if_neg (by simp)]
    split
    · rename_i e heq2
      rw [htc] at heq2
      simp at heq2
    · rename_i out2 heq2
      rw [htc, Except.ok.injEq] at heq2
      subst heq2
      rfl

/-- Witness for C8 at a concrete bad-arity invocation. -/
theorem c8_witness :
    mainRun ["generate_tables.py"] true none CATEGORIES [] =
      ⟨.usageExit, [], [USAGE], [], 1⟩ :=
  (c8_cli_arity ["generate_tables.py"] true none CATEGORIES []).1 (by decide)

theorem rwLine_nonTerm {cat line : List Nat}
    (h : ∀ b ∈ line, nonTerm b = true) :
    ∀ b ∈ rwLine cat line, nonTerm b = true := by
  intro b hb
  rw [rwLine] at hb
  rcases mem_replace _ _ _ _ (Nat.le_refl _) b hb with h1 | h2
  · rcases mem_replace _ _ _ _ (Nat.le_refl _) b h1 with h3 | h4
    · exact h b h3
    · simp at h4
  · simp only [List.mem_singleton] at h2
    subst h2
    decide

theorem chain_nonTerm {o : List (List Nat)} {x y : List Nat}
    (hc : rwChain o x y) (hx : ∀ b ∈ x, nonTerm b = true) :
    ∀ b ∈ y, nonTerm b = true := by
  obtain ⟨cs, hsub, hy⟩ := hc
  subst hy
  clear hsub
  induction cs generalizing x with
  | nil => exact hx
  | cons c cs2 ih =>
    simp only [List.foldl_cons]
    exact ih (rwLine_nonTerm hx)

theorem getD_map_lt {α β : Type} (d : β) (f : α → β) (l : List α) (d0 : α)
    (j : Nat) (h : j < l.length) : (l.map f).getD j d = f (l.getD j d0) := by
  rw [List.getD_eq_getElem?_getD, List.getElem?_map, List.getD_eq_getElem?_getD,
    List.getElem?_eq_getElem h]
  rfl

/-- Claim C3: when `transform_code` succeeds it never reorders lines: the
output is the LF-join of a line list of the same length as the (post
step 1) input line list, in which the line at every position derives from
the input line at that same position by in-place per-category rewrites (a
fold of `rwLine` steps over a subsequence of the enumeration order). -/
theorem c3_no_reordering (order : List (List Nat)) (code out : List Nat)
    (h : transform_code order code = .ok out) :
    ∃ F, out = joinNL F ∧
      F.length = (splitlines (replace code byNameOld byNameNew)).length ∧
      ∀ j, rwChain order
        ((splitlines (replace code byNameOld byNameNew)).getD j [])
        (F.getD j []) := by
  rw [transform_code] at h
  cases htl : transformLines order (splitlines (replace code byNameOld byNameNew)) with
  | error e =>
    rw [htl] at h
    simp [Except.map] at h
  | ok F =>
    rw [htl] at h
    simp only [Except.map, Except.ok.injEq] at h
    obtain ⟨hlen, hchain⟩ := transformLines_chain order _ F htl
    exact ⟨F, h.symm, hlen, hchain⟩

/-- Witness for C3 on the entry-line fixture. -/
theorem c3_witness :
    ∃ F, joinNL (CATEGORY_NAMES.map (fun _ => [88, 44])) = joinNL F ∧
      F.length = (splitlines (replace wfInput byNameOld byNameNew)).length ∧
      ∀ j, rwChain CATEGORIES
        ((splitlines (replace wfInput byNameOld byNameNew)).getD j [])
        (F.getD j []) :=
  c3_no_reordering CATEGORIES wfInput
    (joinNL (CATEGORY_NAMES.map (fun _ => [88, 44]))) (by decide)

/-- Counterexample to C1 as stated: in `c1Input` the category name
`Control` occurs on two distinct lines, yet `transform_code` raises nothing
at all: it returns output, having rewritten only the first matching line. -/
theorem c1_counterexample :
    (splitlines c1Input).countP (fun l => decide (s2b "Control" <:+: l)) = 2 ∧
      transform_code CATEGORIES c1Input =
        .ok (joinNL ((CATEGORY_NAMES.map (fun _ => [88, 44])) ++
          [s2b "Control"])) :=
  ⟨by decide, by decide⟩

/-- Amended C1: when the first category of the enumeration order has no
matching line, `transform_code` does fail, but with the fixed,
category-independent `TypeError` produced by the unchecked `lines[None]`
indexing — not with an error naming the category; and (per the
counterexample) a category whose name matches several lines causes no
failure at all. -/
theorem c1_unmatched_raises (c : List Nat) (cs : List (List Nat))
    (code : List Nat)
    (h : ∀ l ∈ splitlines (replace code byNameOld byNameNew), ¬ c <:+: l) :
    transform_code (c :: cs) code = .error .typeErrorNoneIndex := by
  rw [transform_code]
  simp only [transformLines]
  rw [findIdx_none _ _ (fun l hl => decide_eq_false (h l hl))]
  rfl

/-- Witness for the amended C1 on the empty input, which has no lines. -/
theorem c1_witness :
    transform_code (s2b "Control" :: CATEGORIES) [] =
      .error .typeErrorNoneIndex :=
  c1_unmatched_raises (s2b "Control") CATEGORIES [] (by simp [splitlines_nil, replace_nil])

/-- Counterexample to C10 as stated: `c10Input` ends with an LF byte (in
fact two), the transform succeeds, and the output still ends with an LF
byte — the claim that any final trailing newline of the input is absent
from the output fails when the input's last line is empty. -/
theorem c10_counterexample :
    c10Input.getLast? = some 10 ∧
      transform_code CATEGORIES c10Input =
        .ok (joinNL ((CATEGORY_NAMES.map (fun _ => [88, 44])) ++ [[]])) ∧
      (joinNL ((CATEGORY_NAMES.map (fun _ => [88, 44])) ++ [[]])).getLast? =
        some 10 :=
  ⟨by decide, by decide, by decide⟩

/-- Amended C10: on success the output is the LF-join of the transformed
line list: every output line is free of LF and CR bytes (so the join's
single LF separators are the only line breaks, CRLF endings are gone, no
byte 13 remains anywhere, and no terminator is appended after the last
line); and every raw input line that contains no category name of the
enumeration and no occurrence of the `BY_NAME` type declaration is
byte-identical at its position in the output.  (The original final-newline
clause is corrected by the counterexample: when the input's last line is
empty the output still ends with an LF separator.) -/
theorem c10_line_frame (order : List (List Nat)) (code out : List Nat)
    (h : transform_code order code = .ok out) :
    ∃ F, out = joinNL F ∧
      F.length = (splitlines code).length ∧
      (∀ l ∈ F, 10 ∉ l ∧ 13 ∉ l) ∧
      (13 : Nat) ∉ out ∧
      ∀ j, j < (splitlines code).length →
        ¬ byNameOld <:+: (splitlines code).getD j [] →
        (∀ c ∈ order, ¬ c <:+: (splitlines code).getD j []) →
        F.getD j [] = (splitlines code).getD j [] := by
  have hcomm : splitlines (replace code byNameOld byNameNew) =
      (splitlines code).map (fun l => replace l byNameOld byNameNew) :=
    splitlines_replace byNameOld byNameNew (by decide) (by decide)
      (by decide) (by decide) code.length code (Nat.le_refl _)
  rw [transform_code] at h
  cases htl : transformLines order (splitlines (replace code byNameOld byNameNew)) with
  | error e =>
    rw [htl] at h
    simp [Except.map] at h
  | ok F =>
    rw [htl] at h
    simp only [Except.map, Except.ok.injEq] at h
    obtain ⟨hlen, hchain⟩ := transformLines_chain order _ F htl
    have hlen2 : F.length = (splitlines code).length := by
      rw [hlen, hcomm, List.length_map]
    have hLfree : ∀ l ∈ splitlines (replace code byNameOld byNameNew),
        ∀ b ∈ l, nonTerm b = true :=
      splitlines_chunks_nonTerm (replace code byNameOld byNameNew).length _
        (Nat.le_refl _)
    have hFfree : ∀ l ∈ F, ∀ b ∈ l, nonTerm b = true := by
      intro l hl
      obtain ⟨j, hj, hjl⟩ := List.mem_iff_getElem.mp hl
      have hgd : F.getD j [] = l := by
        rw [List.getD_eq_getElem F ([] : List Nat) hj, hjl]
      rw [← hgd]
      by_cases hjL : j < (splitlines (replace code byNameOld byNameNew)).length
      · have hmemL : (splitlines (replace code byNameOld byNameNew)).getD j [] ∈
            splitlines (replace code byNameOld byNameNew) := by
          rw [List.getD_eq_getElem _ ([] : List Nat) hjL]
          exact List.getElem_mem _
        exact chain_nonTerm (hchain j) (hLfree _ hmemL)
      · rw [hlen] at hj
        exact absurd hj hjL
    have hFsep : ∀ l ∈ F, (10 : Nat) ∉ l ∧ (13 : Nat) ∉ l := by
      intro l hl
      constructor
      · intro hmem
        have h2 := hFfree l hl 10 hmem
        simp [nonTerm] at h2
      · intro hmem
        have h2 := hFfree l hl 13 hmem
        simp [nonTerm] at h2
    refine ⟨F, h.symm, hlen2, hFsep, ?_, ?_⟩
    · rw [← h]
      exact not_mem_joinNL (by decide) (fun l hl => (hFsep l hl).2)
    · intro j hj hnotype hnocat
      have hjL : j < (splitlines (replace code byNameOld byNameNew)).length := by
        rw [hcomm, List.length_map]
        exact hj
      have hmap : (splitlines (replace code byNameOld byNameNew)).getD j [] =
          replace ((splitlines code).getD j []) byNameOld byNameNew := by
        rw [hcomm]
        exact getD_map_lt [] _ _ [] j hj
      have hid : replace ((splitlines code).getD j []) byNameOld byNameNew =
          (splitlines code).getD j [] :=
        replace_no_occ _ hnotype
      have hframe := transformLines_frame order _ F htl j (fun c hc => by
        rw [hmap, hid]
        exact hnocat c hc)
      rw [hframe, hmap, hid]

/-- Witness for the amended C10 on the entry-line fixture. -/
theorem c10_witness :
    ∃ F, joinNL (CATEGORY_NAMES.map (fun _ => [88, 44])) = joinNL F ∧
      F.length = (splitlines wfInput).length ∧
      (∀ l ∈ F, 10 ∉ l ∧ 13 ∉ l) ∧
      (13 : Nat) ∉ joinNL (CATEGORY_NAMES.map (fun _ => [88, 44])) ∧
      ∀ j, j < (splitlines wfInput).length →
        ¬ byNameOld <:+: (splitlines wfInput).getD j [] →
        (∀ c ∈ CATEGORIES, ¬ c <:+: (splitlines wfInput).getD j []) →
        F.getD j [] = (splitlines wfInput).getD j [] :=
  c10_line_frame CATEGORIES wfInput
    (joinNL (CATEGORY_NAMES.map (fun _ => [88, 44]))) (by decide)

theorem inf_trans {α : Type} {a b c : List α} (h1 : a <:+: b)
    (h2 : b <:+: c) : a <:+: c := by
  obtain ⟨u1, v1, hb⟩ := h1
  obtain ⟨u2, v2, hc⟩ := h2
  exact ⟨u2 ++ u1, v1 ++ v2, by rw [← hc, ← hb]; simp⟩

theorem tstate_congr (J : List Nat → Nat) (L : List (List Nat))
    (o1 o2 : List (List Nat)) (hm : ∀ c, c ∈ o1 ↔ c ∈ o2)
    (hu : ∀ c ∈ o1, ∀ d ∈ o1, ¬ c = d → ¬ J c = J d) :
    tstate J o1 L = tstate J o2 L := by
  apply List.ext_getElem
  · rw [tstate_length, tstate_length]
  · intro j hj1 hj2
    rw [tstate_length] at hj1
    rw [← List.getD_eq_getElem _ ([] : List Nat), ← List.getD_eq_getElem _ ([] : List Nat),
      tstate_getD _ _ _ hj1, tstate_getD _ _ _ hj1]
    cases hf : o1.find? (fun c => decide (J c = j)) with
    | some c =>
      have hc1 : c ∈ o1 := List.mem_of_find?_eq_some hf
      have hpc : J c = j := by simpa using List.find?_some hf
      have hf2 : o2.find? (fun c => decide (J c = j)) = some c := by
        apply find?_unique ((hm c).mp hc1) (by simpa using hpc)
        intro x hx hpx
        by_contra hne
        have hJx : J x = j := by simpa using hpx
        exact hu c hc1 x ((hm x).mpr hx) (fun he => hne he.symm)
          (by rw [hpc, hJx])
      rw [hf2]
    | none =>
      have hf2 : o2.find? (fun c => decide (J c = j)) = none := by
        rw [List.find?_eq_none]
        intro x hx
        exact List.find?_eq_none.mp hf x ((hm x).mpr hx)
      rw [hf2]

/-- Counterexample to C2 as stated: both orders are enumerations of
`CATEGORIES`, both runs succeed, and the two outputs differ — rewriting the
`Control` entry of `c2Line0` glues `For` to `mat` and creates a fresh
occurrence of `Format` on an earlier line, which the `Format` iteration
then finds (or misses) depending on the order. -/
theorem c2_counterexample :
    c2Order1.Perm CATEGORIES ∧ c2Order2.Perm CATEGORIES ∧
      transform_code c2Order1 c2Input =
        .ok (joinNL (s2b "Format" :: c2Line1 ::
          c2Rest.map (fun _ => [88, 44]))) ∧
      transform_code c2Order2 c2Input =
        .ok (joinNL (s2b "Format" :: (s2b "xy" ++ [44]) ::
          c2Rest.map (fun _ => [88, 44]))) ∧
      ¬ transform_code c2Order1 c2Input = transform_code c2Order2 c2Input :=
  ⟨by decide, by decide, by decide, by decide, by decide⟩

/-- Amended C2: `transform_code` is a pure function of the enumeration
order and the input, and on well-formed inputs — each category's name on
exactly its own dedicated line, distinct lines for distinct categories, and
no rewrite creating another category's name — the output is the same for
every enumeration order of `CATEGORIES`, namely the join of the in-place
rewritten line list.  (On adversarial inputs the order can leak into the
output; see the counterexample.) -/
theorem c2_order_independence (J : List Nat → Nat) (code : List Nat)
    (L : List (List Nat))
    (hL : splitlines (replace code byNameOld byNameNew) = L)
    (hlen : ∀ c ∈ CATEGORIES, J c < L.length)
    (huniq : ∀ c ∈ CATEGORIES, ∀ j, j < L.length →
      (c <:+: L.getD j [] ↔ j = J c))
    (hinj : ∀ c ∈ CATEGORIES, ∀ d ∈ CATEGORIES, ¬ c = d → ¬ J c = J d)
    (hrw : ∀ c ∈ CATEGORIES, ∀ d ∈ CATEGORIES, ¬ c = d →
      ¬ d <:+: rwLine c (L.getD (J c) []))
    (o1 o2 : List (List Nat)) (h1 : o1.Perm CATEGORIES)
    (h2 : o2.Perm CATEGORIES) :
    transform_code o1 code = transform_code o2 code ∧
      transform_code o1 code = .ok (joinNL (tstate J CATEGORIES L)) := by
  have hrun : ∀ o : List (List Nat), o.Perm CATEGORIES →
      transform_code o code = .ok (joinNL (tstate J CATEGORIES L)) := by
    intro o ho
    have hmem : ∀ c, c ∈ o ↔ c ∈ CATEGORIES := fun c => ho.mem_iff
    have hstep := transformLines_state J o L
      (fun c hc => hlen c ((hmem c).mp hc))
      (fun c hc => huniq c ((hmem c).mp hc))
      (fun c hc d hd => hinj c ((hmem c).mp hc) d ((hmem d).mp hd))
      (fun c hc d hd => hrw c ((hmem c).mp hc) d ((hmem d).mp hd))
      o (ho.nodup_iff.mpr (by decide)) (fun c hc => hc) []
      (fun c hc => absurd hc (List.not_mem_nil c)) (fun c _ hc => List.not_mem_nil c hc)
    rw [tstate_nil] at hstep
    simp only [List.nil_append] at hstep
    have hcongr : tstate J o L = tstate J CATEGORIES L :=
      tstate_congr J L o CATEGORIES hmem
        (fun c hc d hd => hinj c ((hmem c).mp hc) d ((hmem d).mp hd))
    rw [transform_code, hL, hstep, hcongr]
    rfl
  exact ⟨by rw [hrun o1 h1, hrun o2 h2], hrun o1 h1⟩

/-- Witness for the amended C2 on the entry-line fixture, with the source
order and its reverse as the two enumerations. -/
theorem c2_witness :
    transform_code CATEGORIES wfInput =
        transform_code CATEGORIES.reverse wfInput ∧
      transform_code CATEGORIES wfInput =
        .ok (joinNL (tstate wfIdx CATEGORIES wfEntryLines)) :=
  c2_order_independence wfIdx wfInput wfEntryLines (by decide) (by decide)
    (by decide) (by decide) (by decide) CATEGORIES CATEGORIES.reverse
    (by decide) (by decide)

/-- Claim C4: on an input whose post-step-1 lines contain, for each of the
30 categories, exactly one line with that category's name, that line being
an entry `pre ++ ("Name",  ++ ranges ++ ),` whose `pre` and `ranges` parts
hold no parenthesis bytes and whose rewritten form holds no other
category's name, `transform_code` (under any enumeration order of
`CATEGORIES`) succeeds and rewrites exactly each entry line to
`pre ++ ranges ++ ,` — stripping the `("Name", ` prefix and turning the
pair's closing `),` into `,` — leaves every other line untouched, and the
output retains no occurrence of any `("Name", ` pattern. -/
theorem c4_entry_unwrapping (J : List Nat → Nat) (pre r : List Nat → List Nat)
    (code : List Nat) (L : List (List Nat))
    (hL : splitlines (replace code byNameOld byNameNew) = L)
    (hlen : ∀ c ∈ CATEGORIES, J c < L.length)
    (hshape : ∀ c ∈ CATEGORIES,
      L.getD (J c) [] = pre c ++ catPat c ++ r c ++ [41, 44])
    (hpre : ∀ c ∈ CATEGORIES, (40 : Nat) ∉ pre c ∧ (41 : Nat) ∉ pre c)
    (hr : ∀ c ∈ CATEGORIES, (40 : Nat) ∉ r c ∧ (41 : Nat) ∉ r c)
    (huniq : ∀ c ∈ CATEGORIES, ∀ j, j < L.length →
      (c <:+: L.getD j [] ↔ j = J c))
    (hinj : ∀ c ∈ CATEGORIES, ∀ d ∈ CATEGORIES, ¬ c = d → ¬ J c = J d)
    (hcross : ∀ c ∈ CATEGORIES, ∀ d ∈ CATEGORIES, ¬ c = d →
      ¬ d <:+: (pre c ++ r c ++ [44]))
    (o : List (List Nat)) (ho : o.Perm CATEGORIES) :
    ∃ F, transform_code o code = .ok (joinNL F) ∧
      F.length = L.length ∧
      (∀ c ∈ CATEGORIES, F.getD (J c) [] = pre c ++ r c ++ [44]) ∧
      (∀ j, j < L.length → (∀ c ∈ CATEGORIES, ¬ J c = j) →
        F.getD j [] = L.getD j []) ∧
      ∀ c ∈ CATEGORIES, ¬ catPat c <:+: joinNL F := by
  have hentry : ∀ c ∈ CATEGORIES,
      rwLine c (L.getD (J c) []) = pre c ++ r c ++ [44] := by
    intro c hc
    rw [hshape c hc]
    exact rwLine_entry c (pre c) (r c) (hpre c hc).1 (hpre c hc).2
      (hr c hc).1 (hr c hc).2
  have hrw : ∀ c ∈ CATEGORIES, ∀ d ∈ CATEGORIES, ¬ c = d →
      ¬ d <:+: rwLine c (L.getD (J c) []) := by
    intro c hc d hd hne
    rw [hentry c hc]
    exact hcross c hc d hd hne
  obtain ⟨_, hrun⟩ := c2_order_independence J code L hL hlen huniq hinj hrw
    o o ho ho
  have hfindc : ∀ c ∈ CATEGORIES,
      CATEGORIES.find? (fun d => decide (J d = J c)) = some c := by
    intro c hc
    apply find?_unique hc (by simp)
    intro x hx hpx
    by_contra hne
    have hJx : J x = J c := by simpa using hpx
    exact hinj x hx c hc hne hJx
  refine ⟨tstate J CATEGORIES L, hrun, tstate_length _ _ _, ?_, ?_, ?_⟩
  · intro c hc
    rw [tstate_getD J CATEGORIES L (hlen c hc), hfindc c hc]
    exact hentry c hc
  · intro j hj hnone
    rw [tstate_getD J CATEGORIES L hj]
    have hf : CATEGORIES.find? (fun d => decide (J d = j)) = none := by
      rw [List.find?_eq_none]
      intro d hd
      simp only [decide_eq_true_eq]
      exact hnone d hd
    rw [hf]
  · intro c hc hocc
    have hall10 : ∀ x ∈ CATEGORIES, (10 : Nat) ∉ catPat x := by decide
    obtain ⟨l, hl, hil⟩ := inf_joinNL (catPat_ne_nil c) (hall10 c hc) hocc
    obtain ⟨j, hjF, hjl⟩ := List.mem_iff_getElem.mp hl
    have hjL : j < L.length := by
      have h2 := tstate_length J CATEGORIES L
      omega
    have hld : (tstate J CATEGORIES L).getD j [] = l := by
      rw [List.getD_eq_getElem _ ([] : List Nat) hjF, hjl]
    cases hf : CATEGORIES.find? (fun e => decide (J e = j)) with
    | some d =>
      have hd : d ∈ CATEGORIES := List.mem_of_find?_eq_some hf
      have hJd : J d = j := by simpa using List.find?_some hf
      have hldj : l = rwLine d (L.getD j []) := by
        rw [← hld, tstate_getD J CATEGORIES L hjL, hf]
      rw [hldj, ← hJd, hentry d hd] at hil
      by_cases hcd : c = d
      · subst hcd
        have h40 : (40 : Nat) ∈ pre c ++ r c ++ [44] := by
          rw [catPat_cons] at hil
          exact head_mem_of_inf hil
        rcases List.mem_append.mp h40 with h2 | h2
        · rcases List.mem_append.mp h2 with h3 | h3
          · exact (hpre c hc).1 h3
          · exact (hr c hc).1 h3
        · simp at h2
      · have hcinf : c <:+: pre d ++ r d ++ [44] :=
          inf_trans ⟨[40, 34], [34, 44, 32], by rw [catPat]⟩ hil
        exact hcross d hd c hc (fun he => hcd he.symm) hcinf
    | none =>
      have hldj : l = L.getD j [] := by
        rw [← hld, tstate_getD J CATEGORIES L hjL, hf]
      rw [hldj] at hil
      have hcinf : c <:+: L.getD j [] :=
        inf_trans ⟨[40, 34], [34, 44, 32], by rw [catPat]⟩ hil
      have hJc : j = J c := (huniq c hc j hjL).mp hcinf
      have hnone := List.find?_eq_none.mp hf c hc
      simp only [decide_eq_true_eq] at hnone
      exact hnone hJc.symm

/-- Witness for C4 on the entry-line fixture (`pre = []`, `ranges = X`). -/
theorem c4_witness :
    ∃ F, transform_code CATEGORIES wfInput = .ok (joinNL F) ∧
      F.length = wfEntryLines.length ∧
      (∀ c ∈ CATEGORIES, F.getD (wfIdx c) [] = [] ++ [88] ++ [44]) ∧
      (∀ j, j < wfEntryLines.length → (∀ c ∈ CATEGORIES, ¬ wfIdx c = j) →
        F.getD j [] = wfEntryLines.getD j []) ∧
      ∀ c ∈ CATEGORIES, ¬ catPat c <:+: joinNL F :=
  c4_entry_unwrapping wfIdx (fun _ => []) (fun _ => [88]) wfInput wfEntryLines
    (by decide) (by decide) (by decide) (by decide) (by decide) (by decide)
    (by decide) (by decide) CATEGORIES (by decide)

/-- Claim C5: the `BY_NAME` type-declaration rewrite of step 1 is a single
deterministic textual substitution: when the old declared element type
(pair of name string and table reference) occurs exactly once in the input
— no occurrence starts inside the preceding bytes and none occurs in the
following bytes — the replacement swaps in the reference-only element type
at exactly that position, `transform_code` continues on the so-rewritten
bytes, and neither the substituted type nor the canonical declaration line
built from it retains a `&'static str` name-string component. -/
theorem c5_type_rewrite (a b : List Nat) (order : List (List Nat))
    (hleft : ∀ t ∈ a.tails, ¬ t = [] →
      ¬ byNameOld <+: (t ++ (byNameOld ++ b)))
    (hright : ¬ byNameOld <:+: b) :
    replace (a ++ byNameOld ++ b) byNameOld byNameNew =
        a ++ byNameNew ++ b ∧
      transform_code order (a ++ byNameOld ++ b) =
        (transformLines order (splitlines (a ++ byNameNew ++ b))).map joinNL ∧
      ¬ (s2b "&" ++ [39] ++ s2b "static str") <:+: byNameNew ∧
      ¬ (s2b "&" ++ [39] ++ s2b "static str") <:+:
        (byNameNew ++ s2b " = &[") := by
  have h1 : replace (a ++ byNameOld ++ b) byNameOld byNameNew =
      a ++ byNameNew ++ b := by
    rw [List.append_assoc,
      replace_append_left byNameOld byNameNew a (byNameOld ++ b)
        (fun t ht htne => hleft t ((List.mem_tails _ _).mpr ht) htne),
      replace_self_app byNameNew (by decide) b, replace_no_occ _ hright,
      ← List.append_assoc]
  exact ⟨h1, by rw [transform_code, h1], by decide, by decide⟩

/-- Witness for C5 on a two-line fixture around the canonical declaration. -/
theorem c5_witness :
    replace ((s2b "x" ++ [10]) ++ byNameOld ++ s2b " = &[") byNameOld
        byNameNew = (s2b "x" ++ [10]) ++ byNameNew ++ s2b " = &[" ∧
      transform_code CATEGORIES ((s2b "x" ++ [10]) ++ byNameOld ++ s2b " = &[") =
        (transformLines CATEGORIES
          (splitlines ((s2b "x" ++ [10]) ++ byNameNew ++ s2b " = &["))).map joinNL ∧
      ¬ (s2b "&" ++ [39] ++ s2b "static str") <:+: byNameNew ∧
      ¬ (s2b "&" ++ [39] ++ s2b "static str") <:+:
        (byNameNew ++ s2b " = &[") :=
  c5_type_rewrite (s2b "x" ++ [10]) (s2b " = &[") CATEGORIES (by decide)
    (by decide)
